import Mathlib

/-!
Verification development for the polirag repository.

The Rust sources are shallowly embedded: persistent vector stores become
lists of documents, `f32` values become rationals (`ℚ`), `f32::sqrt` is
modelled by `Rat.sqrt`, and fallible operations return `Option`/`Except`.
External effects (the llama.cpp embedder, the on-disk hnsw_rs graph
search, the filesystem walk, the TextSplitter crate) enter the model as
explicit parameters of the functions that call them, so every theorem
quantifies over their possible behaviours.
-/

/-- `Document` from src/rag/mod.rs: the record stored in every backend.
The `metadata` HashMap is modelled as an association list. -/
structure Document where
  id : String
  content : String
  embedding : List ℚ
  metadata : List (String × String)
  user_id : String
deriving DecidableEq, Repr

/-- Dot product of two embedding vectors; `a.iter().zip(b)` truncates to the
shorter vector exactly as `List.zip` does. -/
def dotProduct (a b : List ℚ) : ℚ := ((a.zip b).map (fun p => p.1 * p.2)).sum

/-- `a.iter().map(|x| x * x).sum()` — the squared Euclidean norm. -/
def sumSquares (a : List ℚ) : ℚ := (a.map (fun x => x * x)).sum

/-- `cosine_similarity` from src/rag/store.rs lines 186-196 (the copy in
src/rag/mod.rs lines 289-302 is identical up to logging): guard against a
zero norm on either side, otherwise divide the dot product by the product
of the norms. -/
def cosine_similarity (a b : List ℚ) : ℚ :=
  let norm_a := Rat.sqrt (sumSquares a)
  let norm_b := Rat.sqrt (sumSquares b)
  if norm_a = 0 ∨ norm_b = 0 then 0 else dotProduct a b / (norm_a * norm_b)

/-- The comparator `|a, b| b.1.partial_cmp(&a.1).unwrap_or(Equal)` used by
`sort_by` in every search routine: `a` may precede `b` iff `b.2 ≤ a.2`,
i.e. the list is sorted by descending similarity. Rust's `sort_by` and
`List.mergeSort` are both stable merge sorts. -/
def descBySim (a b : Document × ℚ) : Bool := decide (b.2 ≤ a.2)

namespace LinearVectorStore

/-- `LinearVectorStore::add_document` (src/rag/store.rs lines 95-99):
`retain(|d| d.id != doc.id)` then `push(doc)`. -/
def add_document (documents : List Document) (doc : Document) : List Document :=
  (documents.filter (fun d => d.id != doc.id)) ++ [doc]

/-- `LinearVectorStore::search` (src/rag/store.rs lines 101-120): filter by
user, score with cosine similarity, keep scores strictly above the
threshold, sort descending, and truncate only when `top_k > 0` and the
list is longer than `top_k`. -/
def search (documents : List Document) (query_embedding : List ℚ)
    (user_id : String) (top_k : ℕ) (min_threshold : ℚ) : List (Document × ℚ) :=
  let scores := ((documents.filter (fun d => d.user_id == user_id)).map
      (fun d => (d, cosine_similarity query_embedding d.embedding))).filter
      (fun p => decide (min_threshold < p.2))
  let sorted := scores.mergeSort descBySim
  if 0 < top_k ∧ top_k < sorted.length then sorted.take top_k else sorted

/-- `LinearVectorStore::contains` (src/rag/store.rs lines 135-137). -/
def contains (documents : List Document) (id : String) : Bool :=
  documents.any (fun d => d.id == id)

/-- `LinearVectorStore::remove_document` (src/rag/store.rs lines 139-142). -/
def remove_document (documents : List Document) (id : String) : List Document :=
  documents.filter (fun d => d.id != id)

end LinearVectorStore

namespace HnswVectorStore

/-- `HnswVectorStore::search` (src/rag/hnsw_store.rs lines 114-147).
`documents` is the internal-id map; `neighbors` is the neighbour list the
external hnsw_rs graph search `hnsw.search(query, top_k, ef_search)`
returned, each entry an internal id paired with its `DistCosine` distance.
The body converts distance to similarity (`1.0 - distance`), filters by
user and by `similarity >= min_threshold`, sorts descending and truncates
under the same `top_k > 0` guard as the linear backend. -/
def search (documents : List (ℕ × Document)) (neighbors : List (ℕ × ℚ))
    (user_id : String) (top_k : ℕ) (min_threshold : ℚ) : List (Document × ℚ) :=
  let results := neighbors.filterMap (fun nb =>
    match (documents.filter (fun p => p.1 == nb.1)).head? with
    | none => (none : Option (Document × ℚ))
    | some p =>
      if p.2.user_id == user_id then
        if min_threshold ≤ 1 - nb.2 then some (p.2, 1 - nb.2) else none
      else none)
  let sorted := results.mergeSort descBySim
  if 0 < top_k ∧ top_k < sorted.length then sorted.take top_k else sorted

end HnswVectorStore

namespace RagSystem

/-- `RagSystem::add_document` (src/rag/mod.rs lines 86-103): embed the
content (the llama.cpp embedder is the parameter `embedF`), then
`retain(|d| d.id != id)` and `push`. -/
def add_document (embedF : String → List ℚ) (documents : List Document)
    (id content user_id : String) (meta : List (String × String)) : List Document :=
  (documents.filter (fun d => d.id != id)) ++
    [{ id := id, content := content, embedding := embedF content,
       metadata := meta, user_id := user_id }]

/-- `RagSystem::search` (src/rag/mod.rs lines 202-219): filter by user,
score, sort descending, truncate to `top_k` unconditionally. The query is
embedded before the filter; the model receives the embedded query. -/
def search (documents : List Document) (query_embedding : List ℚ)
    (user_id : String) (top_k : ℕ) : List (Document × ℚ) :=
  let scores := (documents.filter (fun d => d.user_id == user_id)).map
      (fun d => (d, cosine_similarity query_embedding d.embedding))
  (scores.mergeSort descBySim).take top_k

end RagSystem

/-- Helper: filtering for an id immediately after retaining everything with
a different id yields nothing. -/
theorem filter_eq_of_filter_ne (l : List Document) (i : String) :
    (l.filter (fun d => d.id != i)).filter (fun d => d.id == i) = [] := by
  rw [List.filter_filter]
  apply List.filter_eq_nil_iff.mpr
  intro d _
  by_cases h : d.id = i <;> simp [h]

/-- C4: after `add_document`, the added id occurs exactly once and the only
record carrying it is the freshly inserted one; in particular adding the
same document twice in a row leaves exactly one record with that id. This
holds for the `RagSystem` facade and for `LinearVectorStore`. -/
theorem add_document_replaces_id (embedF : String → List ℚ)
    (docs : List Document) (i c u : String) (meta : List (String × String)) :
    ((RagSystem.add_document embedF docs i c u meta).filter (fun d => d.id == i) =
      [{ id := i, content := c, embedding := embedF c, metadata := meta, user_id := u }])
    ∧ ((RagSystem.add_document embedF
          (RagSystem.add_document embedF docs i c u meta) i c u meta).filter
        (fun d => d.id == i) =
      [{ id := i, content := c, embedding := embedF c, metadata := meta, user_id := u }])
    ∧ (∀ doc : Document,
        (LinearVectorStore.add_document docs doc).filter (fun d => d.id == doc.id) = [doc]) := by
  refine ⟨?_, ?_, ?_⟩
  · simp [RagSystem.add_document, List.filter_append, filter_eq_of_filter_ne]
  · simp [RagSystem.add_document, List.filter_append, filter_eq_of_filter_ne]
  · intro doc
    simp [LinearVectorStore.add_document, List.filter_append, filter_eq_of_filter_ne]

/-- `Rat.sqrt 1 = 1`, the exact value `f32::sqrt` also returns at `1.0`. -/
theorem ratSqrt_one : Rat.sqrt 1 = 1 := by decide

/-- `Rat.sqrt 0 = 0`, the exact value `f32::sqrt` also returns at `0.0`. -/
theorem ratSqrt_zero : Rat.sqrt 0 = 0 := by decide

/-- Cosine similarity of the one-dimensional unit vector with itself is 1. -/
theorem cosine_one_one : cosine_similarity [1] [1] = 1 := by
  have h1 : sumSquares [(1 : ℚ)] = 1 := by simp [sumSquares]
  have h2 : dotProduct [(1 : ℚ)] [1] = 1 := by simp [dotProduct]
  simp [cosine_similarity, h1, h2, ratSqrt_one]

/-- Membership survives the `top_k > 0 && len > top_k` truncation guard. -/
theorem mem_of_truncate {k : ℕ} {l : List (Document × ℚ)} {p : Document × ℚ}
    (h : p ∈ (if 0 < k ∧ k < l.length then l.take k else l)) : p ∈ l := by
  split at h
  · exact List.mem_of_mem_take h
  · exact h

/-- The truncation guard bounds the length by `top_k` whenever `top_k > 0`. -/
theorem length_truncate_le {k : ℕ} (l : List (Document × ℚ)) (hk : 0 < k) :
    (if 0 < k ∧ k < l.length then l.take k else l).length ≤ k := by
  by_cases h : 0 < k ∧ k < l.length
  · rw [if_pos h]
    simp
  · rw [if_neg h]
    exact Nat.le_of_not_lt ((not_and.mp h) hk)

/-- Sorting with the descending comparator yields a descending pairwise
ordering of the similarity components. -/
theorem sorted_desc (l : List (Document × ℚ)) :
    (l.mergeSort descBySim).Pairwise (fun a b => b.2 ≤ a.2) := by
  have h := @List.sorted_mergeSort _ descBySim
    (fun a b c hab hbc => by
      simp only [descBySim, decide_eq_true_eq] at hab hbc ⊢
      exact le_trans hbc hab)
    (fun a b => by
      simp only [descBySim, Bool.or_eq_true, decide_eq_true_eq]
      exact le_total b.2 a.2)
    l
  exact h.imp (fun hab => by simpa only [descBySim, decide_eq_true_eq] using hab)

/-- The pre-sort candidate list of the linear search, characterised. -/
theorem mem_linear_scores {docs : List Document} {q : List ℚ} {uid : String}
    {minT : ℚ} {p : Document × ℚ} :
    p ∈ ((docs.filter (fun d => d.user_id == uid)).map
          (fun d => (d, cosine_similarity q d.embedding))).filter
          (fun p => decide (minT < p.2)) ↔
      p.1 ∈ docs ∧ p.1.user_id = uid ∧
        p.2 = cosine_similarity q p.1.embedding ∧ minT < p.2 := by
  constructor
  · intro h
    obtain ⟨hmap, hlt⟩ := List.mem_filter.mp h
    obtain ⟨d, hd, rfl⟩ := List.mem_map.mp hmap
    obtain ⟨hdocs, huid⟩ := List.mem_filter.mp hd
    refine ⟨hdocs, by simpa using huid, rfl, by simpa using hlt⟩
  · rintro ⟨hdocs, huid, hval, hlt⟩
    refine List.mem_filter.mpr ⟨List.mem_map.mpr ⟨p.1, List.mem_filter.mpr
      ⟨hdocs, by simpa using huid⟩, ?_⟩, by simpa using hlt⟩
    obtain ⟨d, s⟩ := p
    simpa using hval.symm

/-- Any pair the HNSW result list contains carries the queried user id and a
similarity at least the threshold. -/
theorem hnsw_result_mem {hdocs : List (ℕ × Document)} {neighbors : List (ℕ × ℚ)}
    {uid : String} {minT : ℚ} {p : Document × ℚ}
    (h : p ∈ neighbors.filterMap (fun nb =>
      match (hdocs.filter (fun r => r.1 == nb.1)).head? with
      | none => (none : Option (Document × ℚ))
      | some r =>
        if r.2.user_id == uid then
          if minT ≤ 1 - nb.2 then some (r.2, 1 - nb.2) else none
        else none)) :
    p.1.user_id = uid ∧ minT ≤ p.2 := by
  obtain ⟨nb, _, hnb⟩ := List.mem_filterMap.mp h
  cases hhead : (hdocs.filter (fun r => r.1 == nb.1)).head? with
  | none =>
    rw [hhead] at hnb
    exact absurd hnb (by simp)
  | some r =>
    rw [hhead] at hnb
    by_cases hu : r.2.user_id == uid
    · by_cases ht : minT ≤ 1 - nb.2
      · have hps : some (r.2, 1 - nb.2) = some p := by simpa [hu, ht] using hnb
        cases hps
        exact ⟨by simpa using hu, ht⟩
      · exact absurd hnb (by simp [hu, ht])
    · exact absurd hnb (by simp [hu])

/-- C3: every document returned by a search carries the `user_id` the query
asked for, in the linear backend, the approximate (HNSW) backend (for any
neighbour list the graph search may produce), and the `RagSystem` facade. -/
theorem search_returns_query_user (docs : List Document) (q : List ℚ)
    (uid : String) (k : ℕ) (minT : ℚ)
    (hdocs : List (ℕ × Document)) (neighbors : List (ℕ × ℚ)) :
    (∀ p ∈ LinearVectorStore.search docs q uid k minT, p.1.user_id = uid)
    ∧ (∀ p ∈ HnswVectorStore.search hdocs neighbors uid k minT, p.1.user_id = uid)
    ∧ (∀ p ∈ RagSystem.search docs q uid k, p.1.user_id = uid) := by
  refine ⟨?_, ?_, ?_⟩
  · intro p hp
    simp only [LinearVectorStore.search] at hp
    have hs := List.mem_mergeSort.mp (mem_of_truncate hp)
    exact (mem_linear_scores.mp hs).2.1
  · intro p hp
    simp only [HnswVectorStore.search] at hp
    have hs := List.mem_mergeSort.mp (mem_of_truncate hp)
    exact (hnsw_result_mem hs).1
  · intro p hp
    simp only [RagSystem.search] at hp
    have hs := List.mem_mergeSort.mp (List.mem_of_mem_take hp)
    obtain ⟨d, hd, rfl⟩ := List.mem_map.mp hs
    simpa using (List.mem_filter.mp hd).2

/-- A one-document store used by the concrete witnesses below. -/
def docA : Document :=
  { id := "d1", content := "c", embedding := [1], metadata := [], user_id := "u" }

/-- Evaluation of the linear search on the concrete one-document store:
the single document of user "u" scores similarity 1 against query `[1]`
and is returned. -/
theorem linear_search_docA :
    LinearVectorStore.search [docA] [1] "u" 1 0 = [(docA, 1)] := by
  simp only [LinearVectorStore.search]
  simp [docA, cosine_one_one, List.mergeSort_singleton]

/-- C3 witness: a concrete one-document store where the linear search does
return a hit, whose `user_id` the theorem then pins to the query's. -/
theorem search_returns_query_user_witness : (docA, (1 : ℚ)).1.user_id = "u" :=
  (search_returns_query_user [docA] [1] "u" 1 0 [] []).1 (docA, 1)
    (by rw [linear_search_docA]; exact List.mem_singleton.mpr rfl)

/-- A member of a descending-sorted list either survives the truncation
guard or the guard cut the list to exactly `k` entries all scoring at
least as high. -/
theorem mem_truncate_or {l : List (Document × ℚ)} {k : ℕ} {x : Document × ℚ}
    (hsorted : l.Pairwise (fun a b => b.2 ≤ a.2)) (hx : x ∈ l) :
    (x ∈ (if 0 < k ∧ k < l.length then l.take k else l))
    ∨ ((if 0 < k ∧ k < l.length then l.take k else l).length = k
        ∧ ∀ p ∈ (if 0 < k ∧ k < l.length then l.take k else l), x.2 ≤ p.2) := by
  by_cases hc : 0 < k ∧ k < l.length
  · rw [if_pos hc]
    have hsplit : l = List.take k l ++ List.drop k l := (List.take_append_drop k l).symm
    rcases List.mem_append.mp (by rw [← hsplit]; exact hx) with h | h
    · exact Or.inl h
    · right
      constructor
      · rw [List.length_take]
        exact Nat.min_eq_left (le_of_lt hc.2)
      · intro p hp
        have hpw := (List.pairwise_append.mp (by rw [hsplit] at hsorted; exact hsorted)).2.2
        exact hpw p hp x h
  · rw [if_neg hc]
    exact Or.inl hx

/-- C1 (amended): for `top_k > 0`, the linear search returns at most
`top_k` pairs; each returned pair scores its own document and lies at or
above `min_threshold`; the list is pairwise descending; and every stored
document of the queried user whose similarity is STRICTLY greater than
`min_threshold` (the code filters with `score > min_threshold`, not `≥`)
appears unless `top_k` documents scoring at least as high fill the result. -/
theorem linear_search_spec (docs : List Document) (q : List ℚ) (uid : String)
    (k : ℕ) (minT : ℚ) (hk : 0 < k) :
    (LinearVectorStore.search docs q uid k minT).length ≤ k
    ∧ (∀ p ∈ LinearVectorStore.search docs q uid k minT,
        minT ≤ p.2 ∧ p.2 = cosine_similarity q p.1.embedding ∧
          p.1 ∈ docs ∧ p.1.user_id = uid)
    ∧ (LinearVectorStore.search docs q uid k minT).Pairwise (fun a b => b.2 ≤ a.2)
    ∧ (∀ d ∈ docs, d.user_id = uid → minT < cosine_similarity q d.embedding →
        (∃ p ∈ LinearVectorStore.search docs q uid k minT, p.1 = d)
        ∨ ((LinearVectorStore.search docs q uid k minT).length = k
            ∧ ∀ p ∈ LinearVectorStore.search docs q uid k minT,
                cosine_similarity q d.embedding ≤ p.2)) := by
  simp only [LinearVectorStore.search]
  refine ⟨length_truncate_le _ hk, ?_, ?_, ?_⟩
  · intro p hp
    have hs := mem_linear_scores.mp (List.mem_mergeSort.mp (mem_of_truncate hp))
    exact ⟨le_of_lt hs.2.2.2, hs.2.2.1, hs.1, hs.2.1⟩
  · by_cases hc : 0 < k ∧ k <
        ((((docs.filter (fun d => d.user_id == uid)).map
          (fun d => (d, cosine_similarity q d.embedding))).filter
          (fun p => decide (minT < p.2))).mergeSort descBySim).length
    · rw [if_pos hc]
      exact (sorted_desc _).sublist (List.take_sublist _ _)
    · rw [if_neg hc]
      exact sorted_desc _
  · intro d hd huid hgt
    have hmem : (d, cosine_similarity q d.embedding) ∈
        (((docs.filter (fun d => d.user_id == uid)).map
          (fun d => (d, cosine_similarity q d.embedding))).filter
          (fun p => decide (minT < p.2))).mergeSort descBySim :=
      List.mem_mergeSort.mpr (mem_linear_scores.mpr ⟨hd, huid, rfl, hgt⟩)
    rcases mem_truncate_or (sorted_desc _) hmem with h | h
    · exact Or.inl ⟨(d, cosine_similarity q d.embedding), h, rfl⟩
    · exact Or.inr h

/-- C1 witness for the amended specification, at the concrete one-document
store: `top_k = 1 > 0` and the search returns exactly one pair. -/
theorem linear_search_spec_witness :
    0 < 1 ∧ (LinearVectorStore.search [docA] [1] "u" 1 0).length ≤ 1 :=
  ⟨Nat.one_pos, (linear_search_spec [docA] [1] "u" 1 0 Nat.one_pos).1⟩

/-- C1 counterexample to the claim as stated: with `min_threshold = 1` the
single stored document of user "u" has similarity exactly `1 =
min_threshold` — "at least min_threshold" — yet the search returns the
empty list (the code keeps only scores strictly greater), even though
fewer than `top_k = 1` higher-scoring documents exist. -/
theorem linear_search_threshold_counterexample :
    cosine_similarity [1] docA.embedding = 1 ∧ docA.user_id = "u"
    ∧ LinearVectorStore.search [docA] [1] "u" 1 1 = [] := by
  refine ⟨by simpa [docA] using cosine_one_one, rfl, ?_⟩
  simp only [LinearVectorStore.search]
  simp [docA, cosine_one_one]

/-- C2 (amended): with `top_k = 0` the approximate (HNSW) backend returns
the empty list — the external knn search, asked for 0 neighbours, returns
none, and the repository code only filters that list — while the linear
backend skips the `top_k > 0` truncation guard entirely and returns every
stored document of the user scoring strictly above the threshold, sorted
descending. -/
theorem search_topk_zero (docs : List Document) (q : List ℚ) (uid : String)
    (minT : ℚ) (hdocs : List (ℕ × Document)) (neighbors : List (ℕ × ℚ))
    (hknn : neighbors.length ≤ 0) :
    HnswVectorStore.search hdocs neighbors uid 0 minT = []
    ∧ LinearVectorStore.search docs q uid 0 minT =
        (((docs.filter (fun d => d.user_id == uid)).map
          (fun d => (d, cosine_similarity q d.embedding))).filter
          (fun p => decide (minT < p.2))).mergeSort descBySim := by
  constructor
  · have hnil : neighbors = [] := List.eq_nil_of_length_eq_zero (Nat.le_zero.mp hknn)
    subst hnil
    simp [HnswVectorStore.search]
  · simp [LinearVectorStore.search]

/-- C2 witness: the amended statement applied to the concrete one-document
store with an empty neighbour list. -/
theorem search_topk_zero_witness :
    ([] : List (ℕ × ℚ)).length ≤ 0
    ∧ HnswVectorStore.search [] [] "u" 0 0 = [] :=
  ⟨Nat.le_refl 0, (search_topk_zero [docA] [1] "u" 0 [] [] (Nat.le_refl 0)).1⟩

/-- C2 counterexample to the claim as stated: in the linear backend,
`top_k = 0` does NOT return the empty list — the truncation is guarded by
`top_k > 0`, so the full match list comes back. -/
theorem linear_topk_zero_counterexample :
    LinearVectorStore.search [docA] [1] "u" 0 0 = [(docA, 1)] := by
  simp only [LinearVectorStore.search]
  simp [docA, cosine_one_one, List.mergeSort_singleton]

/-- C10: `cosine_similarity` is total over the embedded rationals: when
either argument has zero Euclidean norm (equivalently, zero sum of
squares), it returns exactly 0; otherwise both computed norms are nonzero,
their product is nonzero — so the division is by a nonzero denominator —
and the result is the dot product over that product. Unequal lengths are
handled by `zip` truncation inside `dotProduct` and need no precondition. -/
theorem cosine_similarity_total (a b : List ℚ) :
    (sumSquares a = 0 ∨ sumSquares b = 0 → cosine_similarity a b = 0)
    ∧ (cosine_similarity a b = 0
        ∨ (Rat.sqrt (sumSquares a) * Rat.sqrt (sumSquares b) ≠ 0
            ∧ cosine_similarity a b =
              dotProduct a b / (Rat.sqrt (sumSquares a) * Rat.sqrt (sumSquares b)))) := by
  constructor
  · intro h
    rcases h with h | h <;>
      simp [cosine_similarity, h, ratSqrt_zero]
  · by_cases hz : Rat.sqrt (sumSquares a) = 0 ∨ Rat.sqrt (sumSquares b) = 0
    · exact Or.inl (by simp [cosine_similarity, hz])
    · push_neg at hz
      refine Or.inr ⟨mul_ne_zero hz.1 hz.2, ?_⟩
      simp only [cosine_similarity]
      rw [if_neg]
      push_neg
      exact hz

/-- C10 witness: the zero vector `[0, 0]` has zero sum of squares, and its
similarity against `[1]` (note the unequal lengths) is exactly 0. -/
theorem cosine_similarity_total_witness :
    sumSquares [(0 : ℚ), 0] = 0 ∧ cosine_similarity [(0 : ℚ), 0] [1] = 0 := by
  have h0 : sumSquares [(0 : ℚ), 0] = 0 := by simp [sumSquares]
  exact ⟨h0, (cosine_similarity_total [0, 0] [1]).1 (Or.inl h0)⟩

/-- The Unicode White_Space code points: exactly the characters Rust's
`char::is_whitespace` (and hence `str::split_whitespace` and `str::trim`)
treats as whitespace. -/
def rustWhitespace : List ℕ :=
  [0x09, 0x0A, 0x0B, 0x0C, 0x0D, 0x20, 0x85, 0xA0, 0x1680,
   0x2000, 0x2001, 0x2002, 0x2003, 0x2004, 0x2005, 0x2006, 0x2007,
   0x2008, 0x2009, 0x200A, 0x2028, 0x2029, 0x202F, 0x205F, 0x3000]

/-- `char::is_whitespace`. -/
def isWs (c : Char) : Bool := rustWhitespace.contains c.toNat

/-- `str::split_whitespace`: the maximal runs of non-whitespace
characters, i.e. split at every whitespace character and drop the empty
pieces. -/
def splitWhitespace (l : List Char) : List (List Char) :=
  (l.splitOnP isWs).filter (fun w => !w.isEmpty)

/-- `str::trim`: drop whitespace from both ends. -/
def trimChars (l : List Char) : List Char :=
  ((l.dropWhile isWs).reverse.dropWhile isWs).reverse

/-- Rust `str::len`: the UTF-8 byte length of the text. -/
def byteLen (l : List Char) : ℕ := (l.map Char.utf8Size).sum

/-- `MAX_CHUNK_CHARS = MAX_TOKENS * CHARS_PER_TOKEN = 512 * 2` from
src/rag/embeddings.rs lines 32-34. -/
def MAX_CHUNK_CHARS : ℕ := 512 * 2

/-- `text.replace("\n", " ")` at the top of `EmbeddingModel::embed`. -/
def replaceNewlines (l : List Char) : List Char :=
  l.map (fun c => if c = '\n' then ' ' else c)

/-- Loop state of `EmbeddingModel::chunk_text`: finished chunks plus the
chunk under construction. -/
structure ChunkState where
  chunks : List (List Char)
  current : List Char

/-- One iteration of the `for word in words` loop in `chunk_text`
(src/rag/embeddings.rs lines 197-213). -/
def chunkStep (st : ChunkState) (w : List Char) : ChunkState :=
  let st :=
    if byteLen st.current + byteLen w + 1 > MAX_CHUNK_CHARS then
      if st.current.isEmpty then st
      else { chunks := st.chunks ++ [trimChars st.current], current := [] }
    else st
  if st.current.isEmpty then { st with current := w }
  else { st with current := st.current ++ [' '] ++ w }

/-- `EmbeddingModel::chunk_text`: greedily pack whitespace-split words
into chunks of at most `MAX_CHUNK_CHARS` bytes (a single oversized word
still becomes its own chunk), flushing the trailing chunk at the end. -/
def chunk_text (text : List Char) : List (List Char) :=
  let st := (splitWhitespace text).foldl chunkStep { chunks := [], current := [] }
  if st.current.isEmpty then st.chunks else st.chunks ++ [trimChars st.current]

/-- The input-validation stage of `EmbeddingModel::embed`
(src/rag/embeddings.rs lines 92-104): replace newlines by spaces, wrap
short inputs (`text.len() <= MAX_CHUNK_CHARS`) as a single chunk or chunk
long ones, and bail with the only validation error of `embed` when the
chunk list is empty. The per-chunk llama.cpp inference that follows is an
external effect outside this guard and cannot produce this error. -/
def embedChunks (text : List Char) : Except String (List (List Char)) :=
  let t := replaceNewlines text
  let chunks := if byteLen t ≤ MAX_CHUNK_CHARS then [t] else chunk_text t
  if chunks.isEmpty then Except.error "No chunks generated from input text"
  else Except.ok chunks

/-- C6 counterexample to the claim as stated: the empty string does NOT
fail — its byte length 0 is at most `MAX_CHUNK_CHARS`, so `embed` wraps it
as the single chunk `""` and proceeds to inference; no `InvalidInput`
error type exists anywhere in the code. -/
theorem embed_empty_counterexample :
    embedChunks [] = Except.ok [[]] := rfl

/-- C6 (amended): `embed` never fails its input validation for any input
of at most `MAX_CHUNK_CHARS` UTF-8 bytes after newline replacement — such
input, the empty string included, becomes the single chunk equal to the
newline-replaced text and is sent to inference. -/
theorem embed_short_input_ok (l : List Char)
    (h : byteLen (replaceNewlines l) ≤ MAX_CHUNK_CHARS) :
    embedChunks l = Except.ok [replaceNewlines l] := by
  simp [embedChunks, h]

/-- C6 witness: the amended statement applied to the empty string. -/
theorem embed_short_input_ok_witness :
    byteLen (replaceNewlines []) ≤ MAX_CHUNK_CHARS
    ∧ embedChunks [] = Except.ok [replaceNewlines []] :=
  ⟨by decide, embed_short_input_ok [] (by decide)⟩

/-- `str::replace(c, r)` for a single-character pattern: every occurrence
of `c` becomes the string `r`. -/
def replaceChar (c : Char) (r : List Char) (l : List Char) : List Char :=
  l.flatMap (fun x => if x = c then r else [x])

/-- The 21 chained `replace` calls of `normalize_text`
(src/scrapper/processing.rs lines 3-28), in source order: ligatures, then
digraphs, then typographic symbols, then the non-breaking space. -/
def replacementPairs : List (Char × List Char) :=
  [('ﬀ', "ff".data), ('ﬁ', "fi".data), ('ﬂ', "fl".data),
   ('ﬃ', "ffi".data), ('ﬄ', "ffl".data), ('ﬅ', "st".data),
   ('ﬆ', "st".data),
   ('Ĳ', "IJ".data), ('ĳ', "ij".data), ('Œ', "OE".data),
   ('œ', "oe".data), ('Æ', "AE".data), ('æ', "ae".data),
   ('’', [Char.ofNat 39]), ('‘', [Char.ofNat 39]),
   ('“', "\"".data), ('”', "\"".data),
   ('–', "-".data), ('—', "-".data),
   ('…', "...".data), (' ', " ".data)]

/-- The replacement chain of `normalize_text`, applied in source order. -/
def applyReplacements (l : List Char) : List Char :=
  replacementPairs.foldl (fun acc p => replaceChar p.1 p.2 acc) l

/-- `normalize_text` (src/scrapper/processing.rs lines 3-33): run the
replacement chain, then collapse whitespace by splitting on whitespace and
re-joining the words with single spaces. -/
def normalize_text (l : List Char) : List Char :=
  [' '].intercalate (splitWhitespace (applyReplacements l))

/-- Replacing `c` by a string not containing `c` removes every `c`. -/
theorem replaceChar_not_self {c : Char} {r : List Char} (l : List Char)
    (h : c ∉ r) : c ∉ replaceChar c r l := by
  intro hmem
  rcases List.mem_flatMap.mp hmem with ⟨x, _, hx⟩
  by_cases hxc : x = c
  · rw [if_pos hxc] at hx
    exact h hx
  · rw [if_neg hxc] at hx
    exact hxc (List.mem_singleton.mp hx).symm

/-- A character absent from the input and from the replacement string is
absent from the output of `replaceChar`. -/
theorem replaceChar_not_mem {a c : Char} {r l : List Char}
    (hl : a ∉ l) (hr : a ∉ r) : a ∉ replaceChar c r l := by
  intro hmem
  rcases List.mem_flatMap.mp hmem with ⟨x, hxl, hx⟩
  by_cases hxc : x = c
  · rw [if_pos hxc] at hx
    exact hr hx
  · rw [if_neg hxc] at hx
    exact hl ((List.mem_singleton.mp hx) ▸ hxl)

/-- `replaceChar` is the identity when the pattern does not occur. -/
theorem replaceChar_eq_of_not_mem {c : Char} {r : List Char} {l : List Char}
    (h : c ∉ l) : replaceChar c r l = l := by
  induction l with
  | nil => rfl
  | cons x xs ih =>
    have hxc : x ≠ c := fun hx => h (hx ▸ List.mem_cons_self x xs)
    have hxs : c ∉ xs := fun hx => h (List.mem_cons_of_mem x hx)
    simp only [replaceChar, List.flatMap_cons, if_neg hxc]
    simpa [replaceChar] using ih hxs

/-- A replacement chain whose patterns are all absent is the identity. -/
theorem foldl_replace_eq {ps : List (Char × List Char)} {l : List Char}
    (h : ∀ p ∈ ps, p.1 ∉ l) :
    ps.foldl (fun acc p => replaceChar p.1 p.2 acc) l = l := by
  induction ps with
  | nil => rfl
  | cons p ps ih =>
    rw [List.foldl_cons, replaceChar_eq_of_not_mem (h p (List.mem_cons_self p ps))]
    exact ih (fun q hq => h q (List.mem_cons_of_mem p hq))

/-- A character that no replacement string contains is absent from the
output of the chain, provided it is absent initially or some step of the
chain replaces it. -/
theorem foldl_replace_not_mem {a : Char} :
    ∀ {ps : List (Char × List Char)} {l : List Char},
    (∀ p ∈ ps, a ∉ p.2) → (a ∉ l ∨ ∃ p ∈ ps, p.1 = a) →
    a ∉ ps.foldl (fun acc p => replaceChar p.1 p.2 acc) l := by
  intro ps
  induction ps with
  | nil =>
    intro l _ hstart
    rcases hstart with h | ⟨p, hp, _⟩
    · exact h
    · exact absurd hp (List.not_mem_nil p)
  | cons p ps ih =>
    intro l ha hstart
    rw [List.foldl_cons]
    have ha' : ∀ q ∈ ps, a ∉ q.2 := fun q hq => ha q (List.mem_cons_of_mem p hq)
    by_cases hpa : p.1 = a
    · refine ih ha' (Or.inl ?_)
      rw [hpa]
      exact replaceChar_not_self l (ha p (List.mem_cons_self p ps))
    · rcases hstart with h | ⟨q, hq, hqa⟩
      · exact ih ha' (Or.inl (replaceChar_not_mem h (ha p (List.mem_cons_self p ps))))
      · rcases List.mem_cons.mp hq with rfl | hq'
        · exact absurd hqa hpa
        · exact ih ha' (Or.inr ⟨q, hq', hqa⟩)

/-- No replacement string of `normalize_text` contains any of the replaced
characters, and none of the replaced characters is a space. -/
theorem replacementPairs_closed :
    (∀ p ∈ replacementPairs, ∀ q ∈ replacementPairs, p.1 ∉ q.2)
    ∧ (∀ p ∈ replacementPairs, p.1 ≠ ' ') := by decide

/-- After the replacement chain, none of the replaced characters occurs. -/
theorem applyReplacements_no_targets (l : List Char) :
    ∀ p ∈ replacementPairs, p.1 ∉ applyReplacements l := by
  intro p hp
  exact foldl_replace_not_mem
    (fun q hq => replacementPairs_closed.1 p hp q hq)
    (Or.inr ⟨p, hp, rfl⟩)

/-- Characters of a `splitOnP` piece come from the original list. -/
theorem mem_of_mem_splitOnP {p : Char → Bool} :
    ∀ {l w : List Char}, w ∈ l.splitOnP p → ∀ {c : Char}, c ∈ w → c ∈ l := by
  intro l
  induction l with
  | nil =>
    intro w hw c hc
    rw [List.splitOnP_nil] at hw
    rw [List.mem_singleton.mp hw] at hc
    exact absurd hc (List.not_mem_nil c)
  | cons x xs ih =>
    intro w hw c hc
    rw [List.splitOnP_cons] at hw
    by_cases hx : p x
    · rw [if_pos hx] at hw
      rcases List.mem_cons.mp hw with rfl | hw'
      · exact absurd hc (List.not_mem_nil c)
      · exact List.mem_cons_of_mem x (ih hw' hc)
    · rw [if_neg hx] at hw
      cases hsp : xs.splitOnP p with
      | nil => exact absurd hsp (List.splitOnP_ne_nil p xs)
      | cons hd tl =>
        rw [hsp, List.modifyHead_cons] at hw
        rcases List.mem_cons.mp hw with rfl | hw'
        · rcases List.mem_cons.mp hc with rfl | hc'
          · exact List.mem_cons_self c xs
          · refine List.mem_cons_of_mem x (ih ?_ hc')
            rw [hsp]
            exact List.mem_cons_self hd tl
        · refine List.mem_cons_of_mem x (ih ?_ hc)
          rw [hsp]
          exact List.mem_cons_of_mem hd hw'

/-- No character of a `splitOnP` piece satisfies the split predicate. -/
theorem not_p_of_mem_splitOnP {p : Char → Bool} :
    ∀ {l w : List Char}, w ∈ l.splitOnP p → ∀ {c : Char}, c ∈ w → ¬p c := by
  intro l
  induction l with
  | nil =>
    intro w hw c hc
    rw [List.splitOnP_nil] at hw
    rw [List.mem_singleton.mp hw] at hc
    exact absurd hc (List.not_mem_nil c)
  | cons x xs ih =>
    intro w hw c hc
    rw [List.splitOnP_cons] at hw
    by_cases hx : p x
    · rw [if_pos hx] at hw
      rcases List.mem_cons.mp hw with rfl | hw'
      · exact absurd hc (List.not_mem_nil c)
      · exact ih hw' hc
    · rw [if_neg hx] at hw
      cases hsp : xs.splitOnP p with
      | nil => exact absurd hsp (List.splitOnP_ne_nil p xs)
      | cons hd tl =>
        rw [hsp, List.modifyHead_cons] at hw
        rcases List.mem_cons.mp hw with rfl | hw'
        · rcases List.mem_cons.mp hc with rfl | hc'
          · exact fun hpc => hx hpc
          · refine ih ?_ hc'
            rw [hsp]
            exact List.mem_cons_self hd tl
        · refine ih ?_ hc
          rw [hsp]
          exact List.mem_cons_of_mem hd hw'

/-- Every piece of `splitWhitespace` is a nonempty word free of
whitespace, and its characters come from the input. -/
theorem splitWhitespace_good {l w : List Char} (hw : w ∈ splitWhitespace l) :
    w ≠ [] ∧ (∀ c ∈ w, ¬isWs c) ∧ (∀ c ∈ w, c ∈ l) := by
  obtain ⟨hsp, hne⟩ := List.mem_filter.mp hw
  refine ⟨by simpa using hne, fun c hc => not_p_of_mem_splitOnP hsp hc,
    fun c hc => mem_of_mem_splitOnP hsp hc⟩

/-- Members of a single-space join are spaces or characters of the words. -/
theorem mem_intercalate_space {ws : List (List Char)} {x : Char}
    (h : x ∈ [' '].intercalate ws) : x = ' ' ∨ ∃ w ∈ ws, x ∈ w := by
  induction ws with
  | nil => exact absurd h (by simp [List.intercalate])
  | cons w t ih =>
    cases t with
    | nil =>
      refine Or.inr ⟨w, List.mem_singleton.mpr rfl, ?_⟩
      simpa [List.intercalate] using h
    | cons w2 t2 =>
      have h' : x ∈ w ++ ' ' :: [' '].intercalate (w2 :: t2) := by
        simpa [List.intercalate, List.intersperse] using h
      rcases List.mem_append.mp h' with hw | hrest
      · exact Or.inr ⟨w, List.mem_cons_self w _, hw⟩
      · rcases List.mem_cons.mp hrest with rfl | htail
        · exact Or.inl rfl
        · rcases ih htail with hx | ⟨w', hw', hxw'⟩
          · exact Or.inl hx
          · exact Or.inr ⟨w', List.mem_cons_of_mem w hw', hxw'⟩

/-- Splitting the single-space join of nonempty whitespace-free words
recovers exactly the words. -/
theorem splitWhitespace_intercalate {ws : List (List Char)}
    (h : ∀ w ∈ ws, w ≠ [] ∧ ∀ c ∈ w, ¬isWs c) :
    splitWhitespace ([' '].intercalate ws) = ws := by
  induction ws with
  | nil => rfl
  | cons w t ih =>
    cases t with
    | nil =>
      have hw := h w (List.mem_cons_self w [])
      have hsingle : ([' '].intercalate [w]) = w := by simp [List.intercalate]
      rw [hsingle]
      unfold splitWhitespace
      rw [List.splitOnP_eq_single _ _ (fun c hc => by simpa using hw.2 c hc)]
      simp [hw.1]
    | cons w2 t2 =>
      have hw := h w (List.mem_cons_self w _)
      have hjoin : [' '].intercalate (w :: w2 :: t2) =
          w ++ ' ' :: [' '].intercalate (w2 :: t2) := by
        simp [List.intercalate, List.intersperse]
      rw [hjoin]
      unfold splitWhitespace
      rw [List.splitOnP_first isWs w (fun c hc => by simpa using hw.2 c hc) ' '
        (by decide) ([' '].intercalate (w2 :: t2))]
      rw [List.filter_cons_of_pos (by simpa using hw.1)]
      have ht := ih (fun v hv => h v (List.mem_cons_of_mem w hv))
      unfold splitWhitespace at ht
      rw [ht]

/-- C8: `normalize_text` is idempotent — no replacement output
re-introduces a replaced character, the words of the collapsed output are
whitespace-free, and re-splitting the single-space join returns the same
words. -/
theorem normalize_text_idempotent (l : List Char) :
    normalize_text (normalize_text l) = normalize_text l := by
  have hA : applyReplacements (normalize_text l) = normalize_text l := by
    apply foldl_replace_eq
    intro p hp hmem
    rcases mem_intercalate_space hmem with h1 | ⟨w, hw, hcw⟩
    · exact replacementPairs_closed.2 p hp h1
    · exact applyReplacements_no_targets l p hp
        ((splitWhitespace_good hw).2.2 p.1 hcw)
  show [' '].intercalate (splitWhitespace (applyReplacements (normalize_text l)))
      = normalize_text l
  rw [hA]
  show [' '].intercalate (splitWhitespace
      ([' '].intercalate (splitWhitespace (applyReplacements l))))
    = normalize_text l
  rw [splitWhitespace_intercalate
    (fun w hw => ⟨(splitWhitespace_good hw).1, (splitWhitespace_good hw).2.1⟩)]
  rfl

/-- `ENCRYPTION_KEY = b"PoliRag2026SecretKey!@#$%"` (src/config.rs line 6),
as its 25 byte values. -/
def ENCRYPTION_KEY : List ℕ := "PoliRag2026SecretKey!@#$%".data.map Char.toNat

/-- `data.bytes().zip(ENCRYPTION_KEY.iter().cycle()).map(|(b, k)| b ^ k)`:
byte `i` is XORed with key byte `i mod 25`. Used identically by `encrypt`
and `decrypt` (src/config.rs lines 53-70). -/
def xorKey (data : List ℕ) : List ℕ :=
  List.zipWith (fun b k => b ^^^ k) data
    ((List.range data.length).map
      (fun i => ENCRYPTION_KEY.getD (i % ENCRYPTION_KEY.length) 0))

/-- The base64 alphabet of src/config.rs lines 74 and 96. -/
def B64_ALPHABET : List Char :=
  "ABCDEFGHIJKLMNOPQRSTUVWXYZabcdefghijklmnopqrstuvwxyz0123456789+/".data

/-- `base64_encode` (src/config.rs lines 73-93): 3-byte chunks become 4
alphabet characters; a trailing chunk of 1 or 2 bytes becomes 2 or 3
characters followed by `=` padding. The loop `n |= byte << (16 - 8*i)` and
the index extraction `(n >> (18 - 6*i)) & 0x3F` are unrolled per chunk
shape. -/
def base64_encode : List ℕ → List Char
  | [] => []
  | [b0] =>
    [B64_ALPHABET.getD ((b0 <<< 16) >>> 18 &&& 63) 'A',
     B64_ALPHABET.getD ((b0 <<< 16) >>> 12 &&& 63) 'A', '=', '=']
  | [b0, b1] =>
    [B64_ALPHABET.getD ((b0 <<< 16 ||| b1 <<< 8) >>> 18 &&& 63) 'A',
     B64_ALPHABET.getD ((b0 <<< 16 ||| b1 <<< 8) >>> 12 &&& 63) 'A',
     B64_ALPHABET.getD ((b0 <<< 16 ||| b1 <<< 8) >>> 6 &&& 63) 'A', '=']
  | b0 :: b1 :: b2 :: rest =>
    B64_ALPHABET.getD ((b0 <<< 16 ||| b1 <<< 8 ||| b2) >>> 18 &&& 63) 'A' ::
    B64_ALPHABET.getD ((b0 <<< 16 ||| b1 <<< 8 ||| b2) >>> 12 &&& 63) 'A' ::
    B64_ALPHABET.getD ((b0 <<< 16 ||| b1 <<< 8 ||| b2) >>> 6 &&& 63) 'A' ::
    B64_ALPHABET.getD ((b0 <<< 16 ||| b1 <<< 8 ||| b2) &&& 63) 'A' ::
    base64_encode rest

/-- `data.trim_end_matches('=')` at the top of `base64_decode`. -/
def trimTrailingEq (s : List Char) : List Char :=
  (s.reverse.dropWhile (fun c => c == '=')).reverse

/-- The `for chunk in bytes.chunks(4)` loop of `base64_decode`
(src/config.rs lines 101-117): each character's alphabet position
(`position` returning `None` aborts the whole decode via `?`), the
accumulator `n |= idx << (18 - 6*i)`, and 3, 2, 1 or 0 output bytes
according to the chunk length. -/
def base64_decode_chunks : List Char → Option (List ℕ)
  | [] => some []
  | [c0] => do
    let _ ← List.findIdx? (fun ch => ch == c0) B64_ALPHABET
    some []
  | [c0, c1] => do
    let i0 ← List.findIdx? (fun ch => ch == c0) B64_ALPHABET
    let i1 ← List.findIdx? (fun ch => ch == c1) B64_ALPHABET
    some [(i0 <<< 18 ||| i1 <<< 12) >>> 16 &&& 255]
  | [c0, c1, c2] => do
    let i0 ← List.findIdx? (fun ch => ch == c0) B64_ALPHABET
    let i1 ← List.findIdx? (fun ch => ch == c1) B64_ALPHABET
    let i2 ← List.findIdx? (fun ch => ch == c2) B64_ALPHABET
    some [(i0 <<< 18 ||| i1 <<< 12 ||| i2 <<< 6) >>> 16 &&& 255,
          (i0 <<< 18 ||| i1 <<< 12 ||| i2 <<< 6) >>> 8 &&& 255]
  | c0 :: c1 :: c2 :: c3 :: rest => do
    let i0 ← List.findIdx? (fun ch => ch == c0) B64_ALPHABET
    let i1 ← List.findIdx? (fun ch => ch == c1) B64_ALPHABET
    let i2 ← List.findIdx? (fun ch => ch == c2) B64_ALPHABET
    let i3 ← List.findIdx? (fun ch => ch == c3) B64_ALPHABET
    let r ← base64_decode_chunks rest
    some ([(i0 <<< 18 ||| i1 <<< 12 ||| i2 <<< 6 ||| i3) >>> 16 &&& 255,
           (i0 <<< 18 ||| i1 <<< 12 ||| i2 <<< 6 ||| i3) >>> 8 &&& 255,
           (i0 <<< 18 ||| i1 <<< 12 ||| i2 <<< 6 ||| i3) &&& 255] ++ r)

/-- `base64_decode` (src/config.rs lines 95-119): trim the `=` padding,
then decode 4-character chunks. -/
def base64_decode (s : List Char) : Option (List ℕ) :=
  base64_decode_chunks (trimTrailingEq s)

/-- `encrypt` (src/config.rs lines 53-60): XOR with the cycled key, then
base64-encode. The input is the UTF-8 byte sequence of the credential
string. -/
def encrypt (data : List ℕ) : List Char := base64_encode (xorKey data)

/-- `decrypt` (src/config.rs lines 62-70) up to the final
`String::from_utf8` (which, applied to the byte sequence of the original
string, returns exactly that string): base64-decode, then XOR with the
cycled key again. -/
def decrypt (s : List Char) : Option (List ℕ) := (base64_decode s).map xorKey

/-- Bit-disjoint OR is addition: `a * 2^k ||| b = a * 2^k + b` for `b < 2^k`. -/
theorem mul_pow_or_eq_add {a b k : ℕ} (h : b < 2 ^ k) :
    a * 2 ^ k ||| b = a * 2 ^ k + b := by
  apply Nat.eq_of_testBit_eq
  intro j
  have hmul : a * 2 ^ k = 2 ^ k * a := mul_comm _ _
  rw [hmul, Nat.testBit_or, Nat.testBit_mul_pow_two_add a h j]
  rw [show (2 : ℕ) ^ k * a = a <<< k from by rw [Nat.shiftLeft_eq, mul_comm]]
  rw [Nat.testBit_shiftLeft]
  by_cases hj : j < k
  · rw [if_pos hj]
    have hge : decide (j ≥ k) = false := decide_eq_false (by omega)
    rw [hge, Bool.false_and, Bool.false_or]
  · rw [if_neg hj]
    have hge : decide (j ≥ k) = true := decide_eq_true (by omega)
    have hb : b.testBit j = false :=
      Nat.testBit_lt_two_pow
        (lt_of_lt_of_le h (Nat.pow_le_pow_right (by norm_num) (by omega)))
    rw [hge, Bool.true_and, hb, Bool.or_false]

/-- `x &&& 63 = x % 64`. -/
theorem and63 (x : ℕ) : x &&& 63 = x % 64 := by
  have h := Nat.and_pow_two_sub_one_eq_mod x 6
  norm_num at h
  exact h

/-- `x &&& 255 = x % 256`. -/
theorem and255 (x : ℕ) : x &&& 255 = x % 256 := by
  have h := Nat.and_pow_two_sub_one_eq_mod x 8
  norm_num at h
  exact h

/-- `mul_pow_or_eq_add` at `2^6`. -/
theorem or_add_64 {a b : ℕ} (h : b < 64) : a * 64 ||| b = a * 64 + b := by
  have h2 := @mul_pow_or_eq_add a b 6 (by norm_num; omega)
  norm_num at h2
  exact h2

/-- `mul_pow_or_eq_add` at `2^8`. -/
theorem or_add_256 {a b : ℕ} (h : b < 256) : a * 256 ||| b = a * 256 + b := by
  have h2 := @mul_pow_or_eq_add a b 8 (by norm_num; omega)
  norm_num at h2
  exact h2

/-- `mul_pow_or_eq_add` at `2^12`. -/
theorem or_add_4096 {a b : ℕ} (h : b < 4096) : a * 4096 ||| b = a * 4096 + b := by
  have h2 := @mul_pow_or_eq_add a b 12 (by norm_num; omega)
  norm_num at h2
  exact h2

/-- `mul_pow_or_eq_add` at `2^16`. -/
theorem or_add_65536 {a b : ℕ} (h : b < 65536) :
    a * 65536 ||| b = a * 65536 + b := by
  have h2 := @mul_pow_or_eq_add a b 16 (by norm_num; omega)
  norm_num at h2
  exact h2

/-- `mul_pow_or_eq_add` at `2^18`. -/
theorem or_add_262144 {a b : ℕ} (h : b < 262144) :
    a * 262144 ||| b = a * 262144 + b := by
  have h2 := @mul_pow_or_eq_add a b 18 (by norm_num; omega)
  norm_num at h2
  exact h2

/-- A 6-bit mask always yields a valid alphabet index. -/
theorem and63_lt (x : ℕ) : x &&& 63 < 64 := by
  rw [and63]
  omega

/-- `position` over the alphabet inverts indexing, for every valid index. -/
theorem alphabet_findIdx {i : ℕ} (h : i < 64) :
    List.findIdx? (fun ch => ch == B64_ALPHABET.getD i 'A') B64_ALPHABET = some i := by
  have hall : ∀ j ∈ List.range 64,
      List.findIdx? (fun ch => ch == B64_ALPHABET.getD j 'A') B64_ALPHABET = some j := by
    decide
  exact hall i (List.mem_range.mpr h)

/-- No alphabet character is the padding character. -/
theorem alphabet_ne_pad {i : ℕ} (h : i < 64) :
    (B64_ALPHABET.getD i 'A' == '=') = false := by
  have hall : ∀ j ∈ List.range 64, (B64_ALPHABET.getD j 'A' == '=') = false := by
    decide
  exact hall i (List.mem_range.mpr h)

/-- Padding-trim passes over a block whose own trim is nonempty. -/
theorem trimTrailingEq_append_of_ne_nil {l1 l2 : List Char}
    (h : trimTrailingEq l2 ≠ []) :
    trimTrailingEq (l1 ++ l2) = l1 ++ trimTrailingEq l2 := by
  unfold trimTrailingEq at h ⊢
  rw [List.reverse_append, List.dropWhile_append]
  have h2 : ¬(List.dropWhile (fun c => c == '=') l2.reverse).isEmpty = true := by
    intro hempty
    rw [List.isEmpty_iff.mp hempty] at h
    exact h rfl
  rw [if_neg h2, List.reverse_append, List.reverse_reverse]

/-- A list containing a non-padding character trims to a nonempty list. -/
theorem trimTrailingEq_ne_nil {l : List Char} {c : Char}
    (hc : c ∈ l) (hne : (c == '=') = false) : trimTrailingEq l ≠ [] := by
  unfold trimTrailingEq
  intro h
  have h2 : List.dropWhile (fun x => x == '=') l.reverse = [] := by
    have := congrArg List.reverse h
    simpa using this
  have h3 := List.dropWhile_eq_nil_iff.mp h2 c (List.mem_reverse.mpr hc)
  rw [hne] at h3
  exact Bool.false_ne_true h3

/-- Trimming stops at a final non-padding character. -/
theorem trimTrailingEq_append_single {l : List Char} {c : Char}
    (h : (c == '=') = false) : trimTrailingEq (l ++ [c]) = l ++ [c] := by
  unfold trimTrailingEq
  rw [List.reverse_append]
  simp [List.dropWhile_cons, h]

/-- Trimming removes a final padding character. -/
theorem trimTrailingEq_append_pad {l : List Char} :
    trimTrailingEq (l ++ ['=']) = trimTrailingEq l := by
  unfold trimTrailingEq
  rw [List.reverse_append]
  simp [List.dropWhile_cons]

/-- A full 3-byte chunk packs into 24 bits by place value. -/
theorem b64_n3 {b0 b1 b2 : ℕ} (h1 : b1 < 256) (h2 : b2 < 256) :
    b0 <<< 16 ||| b1 <<< 8 ||| b2 = b0 * 65536 + b1 * 256 + b2 := by
  rw [Nat.or_assoc, Nat.shiftLeft_eq, Nat.shiftLeft_eq]
  norm_num
  rw [or_add_256 h2, or_add_65536 (by omega)]
  omega

/-- Decoding the four 6-bit digits of a 3-byte chunk returns the bytes. -/
theorem b64_core3 {b0 b1 b2 : ℕ} (h0 : b0 < 256) (h1 : b1 < 256) (h2 : b2 < 256) :
    ((((b0 <<< 16 ||| b1 <<< 8 ||| b2) >>> 18 &&& 63) <<< 18 |||
      ((b0 <<< 16 ||| b1 <<< 8 ||| b2) >>> 12 &&& 63) <<< 12 |||
      ((b0 <<< 16 ||| b1 <<< 8 ||| b2) >>> 6 &&& 63) <<< 6 |||
      ((b0 <<< 16 ||| b1 <<< 8 ||| b2) &&& 63)) >>> 16 &&& 255 = b0)
    ∧ ((((b0 <<< 16 ||| b1 <<< 8 ||| b2) >>> 18 &&& 63) <<< 18 |||
      ((b0 <<< 16 ||| b1 <<< 8 ||| b2) >>> 12 &&& 63) <<< 12 |||
      ((b0 <<< 16 ||| b1 <<< 8 ||| b2) >>> 6 &&& 63) <<< 6 |||
      ((b0 <<< 16 ||| b1 <<< 8 ||| b2) &&& 63)) >>> 8 &&& 255 = b1)
    ∧ ((((b0 <<< 16 ||| b1 <<< 8 ||| b2) >>> 18 &&& 63) <<< 18 |||
      ((b0 <<< 16 ||| b1 <<< 8 ||| b2) >>> 12 &&& 63) <<< 12 |||
      ((b0 <<< 16 ||| b1 <<< 8 ||| b2) >>> 6 &&& 63) <<< 6 |||
      ((b0 <<< 16 ||| b1 <<< 8 ||| b2) &&& 63)) &&& 255 = b2) := by
  rw [b64_n3 h1 h2]
  simp only [Nat.shiftLeft_eq, Nat.shiftRight_eq_div_pow, and63, and255]
  norm_num
  rw [Nat.or_assoc, Nat.or_assoc]
  rw [or_add_64 (by omega)]
  rw [or_add_4096 (by omega)]
  rw [or_add_262144 (by omega)]
  refine ⟨by omega, by omega, by omega⟩

/-- A 2-byte chunk packs into the top 16 of 24 bits. -/
theorem b64_n2 {b0 b1 : ℕ} (h1 : b1 < 256) :
    b0 <<< 16 ||| b1 <<< 8 = b0 * 65536 + b1 * 256 := by
  rw [Nat.shiftLeft_eq, Nat.shiftLeft_eq]
  norm_num
  rw [or_add_65536 (by omega)]

/-- Decoding the three 6-bit digits of a 2-byte chunk returns the bytes. -/
theorem b64_core2 {b0 b1 : ℕ} (h0 : b0 < 256) (h1 : b1 < 256) :
    ((((b0 <<< 16 ||| b1 <<< 8) >>> 18 &&& 63) <<< 18 |||
      ((b0 <<< 16 ||| b1 <<< 8) >>> 12 &&& 63) <<< 12 |||
      ((b0 <<< 16 ||| b1 <<< 8) >>> 6 &&& 63) <<< 6) >>> 16 &&& 255 = b0)
    ∧ ((((b0 <<< 16 ||| b1 <<< 8) >>> 18 &&& 63) <<< 18 |||
      ((b0 <<< 16 ||| b1 <<< 8) >>> 12 &&& 63) <<< 12 |||
      ((b0 <<< 16 ||| b1 <<< 8) >>> 6 &&& 63) <<< 6) >>> 8 &&& 255 = b1) := by
  rw [b64_n2 h1]
  simp only [Nat.shiftLeft_eq, Nat.shiftRight_eq_div_pow, and63, and255]
  norm_num
  rw [Nat.or_assoc]
  rw [or_add_4096 (by omega)]
  rw [or_add_262144 (by omega)]
  refine ⟨by omega, by omega⟩

/-- Decoding the two 6-bit digits of a 1-byte chunk returns the byte. -/
theorem b64_core1 {b0 : ℕ} (h0 : b0 < 256) :
    (((b0 <<< 16) >>> 18 &&& 63) <<< 18 |||
      ((b0 <<< 16) >>> 12 &&& 63) <<< 12) >>> 16 &&& 255 = b0 := by
  simp only [Nat.shiftLeft_eq, Nat.shiftRight_eq_div_pow, and63, and255]
  norm_num
  rw [or_add_262144 (by omega)]
  omega

/-- The encoding of a nonempty byte list survives padding-trim nonempty:
its first character is an alphabet character. -/
theorem base64_encode_trim_ne_nil : ∀ (rest : List ℕ), rest ≠ [] →
    trimTrailingEq (base64_encode rest) ≠ []
  | [], hne => absurd rfl hne
  | [_], _ =>
    trimTrailingEq_ne_nil (List.mem_cons_self _ _) (alphabet_ne_pad (and63_lt _))
  | [_, _], _ =>
    trimTrailingEq_ne_nil (List.mem_cons_self _ _) (alphabet_ne_pad (and63_lt _))
  | _ :: _ :: _ :: _, _ =>
    trimTrailingEq_ne_nil (List.mem_cons_self _ _) (alphabet_ne_pad (and63_lt _))

/-- The hand-rolled base64 decoder inverts the hand-rolled encoder on
every byte list. -/
theorem base64_roundtrip : ∀ (bs : List ℕ), (∀ b ∈ bs, b < 256) →
    base64_decode (base64_encode bs) = some bs
  | [], _ => rfl
  | [b0], h => by
    have hb0 : b0 < 256 := h b0 (List.mem_singleton.mpr rfl)
    have hi0 : (b0 <<< 16) >>> 18 &&& 63 < 64 := and63_lt _
    have hi1 : (b0 <<< 16) >>> 12 &&& 63 < 64 := and63_lt _
    show base64_decode_chunks (trimTrailingEq
      [B64_ALPHABET.getD ((b0 <<< 16) >>> 18 &&& 63) 'A',
       B64_ALPHABET.getD ((b0 <<< 16) >>> 12 &&& 63) 'A', '=', '=']) = some [b0]
    have htrim : trimTrailingEq
        [B64_ALPHABET.getD ((b0 <<< 16) >>> 18 &&& 63) 'A',
         B64_ALPHABET.getD ((b0 <<< 16) >>> 12 &&& 63) 'A', '=', '='] =
        [B64_ALPHABET.getD ((b0 <<< 16) >>> 18 &&& 63) 'A'] ++
        [B64_ALPHABET.getD ((b0 <<< 16) >>> 12 &&& 63) 'A'] := by
      show trimTrailingEq
        (([B64_ALPHABET.getD ((b0 <<< 16) >>> 18 &&& 63) 'A',
           B64_ALPHABET.getD ((b0 <<< 16) >>> 12 &&& 63) 'A', '='] ++ ['='])) = _
      rw [trimTrailingEq_append_pad]
      show trimTrailingEq
        (([B64_ALPHABET.getD ((b0 <<< 16) >>> 18 &&& 63) 'A',
           B64_ALPHABET.getD ((b0 <<< 16) >>> 12 &&& 63) 'A'] ++ ['='])) = _
      rw [trimTrailingEq_append_pad]
      show trimTrailingEq
        ([B64_ALPHABET.getD ((b0 <<< 16) >>> 18 &&& 63) 'A'] ++
         [B64_ALPHABET.getD ((b0 <<< 16) >>> 12 &&& 63) 'A']) = _
      exact trimTrailingEq_append_single (alphabet_ne_pad hi1)
    rw [htrim]
    simp only [List.cons_append, List.nil_append, base64_decode_chunks]
    rw [alphabet_findIdx hi0, alphabet_findIdx hi1]
    simp [b64_core1 hb0]
  | [b0, b1], h => by
    have hb0 : b0 < 256 := h b0 (by simp)
    have hb1 : b1 < 256 := h b1 (by simp)
    have hi0 : (b0 <<< 16 ||| b1 <<< 8) >>> 18 &&& 63 < 64 := and63_lt _
    have hi1 : (b0 <<< 16 ||| b1 <<< 8) >>> 12 &&& 63 < 64 := and63_lt _
    have hi2 : (b0 <<< 16 ||| b1 <<< 8) >>> 6 &&& 63 < 64 := and63_lt _
    show base64_decode_chunks (trimTrailingEq
      [B64_ALPHABET.getD ((b0 <<< 16 ||| b1 <<< 8) >>> 18 &&& 63) 'A',
       B64_ALPHABET.getD ((b0 <<< 16 ||| b1 <<< 8) >>> 12 &&& 63) 'A',
       B64_ALPHABET.getD ((b0 <<< 16 ||| b1 <<< 8) >>> 6 &&& 63) 'A', '=']) =
      some [b0, b1]
    have htrim : trimTrailingEq
        [B64_ALPHABET.getD ((b0 <<< 16 ||| b1 <<< 8) >>> 18 &&& 63) 'A',
         B64_ALPHABET.getD ((b0 <<< 16 ||| b1 <<< 8) >>> 12 &&& 63) 'A',
         B64_ALPHABET.getD ((b0 <<< 16 ||| b1 <<< 8) >>> 6 &&& 63) 'A', '='] =
        [B64_ALPHABET.getD ((b0 <<< 16 ||| b1 <<< 8) >>> 18 &&& 63) 'A',
         B64_ALPHABET.getD ((b0 <<< 16 ||| b1 <<< 8) >>> 12 &&& 63) 'A'] ++
        [B64_ALPHABET.getD ((b0 <<< 16 ||| b1 <<< 8) >>> 6 &&& 63) 'A'] := by
      show trimTrailingEq
        (([B64_ALPHABET.getD ((b0 <<< 16 ||| b1 <<< 8) >>> 18 &&& 63) 'A',
           B64_ALPHABET.getD ((b0 <<< 16 ||| b1 <<< 8) >>> 12 &&& 63) 'A',
           B64_ALPHABET.getD ((b0 <<< 16 ||| b1 <<< 8) >>> 6 &&& 63) 'A'] ++ ['='])) = _
      rw [trimTrailingEq_append_pad]
      show trimTrailingEq
        ([B64_ALPHABET.getD ((b0 <<< 16 ||| b1 <<< 8) >>> 18 &&& 63) 'A',
          B64_ALPHABET.getD ((b0 <<< 16 ||| b1 <<< 8) >>> 12 &&& 63) 'A'] ++
         [B64_ALPHABET.getD ((b0 <<< 16 ||| b1 <<< 8) >>> 6 &&& 63) 'A']) = _
      exact trimTrailingEq_append_single (alphabet_ne_pad hi2)
    rw [htrim]
    simp only [List.cons_append, List.nil_append, base64_decode_chunks]
    rw [alphabet_findIdx hi0, alphabet_findIdx hi1, alphabet_findIdx hi2]
    simp [(b64_core2 hb0 hb1).1, (b64_core2 hb0 hb1).2]
  | b0 :: b1 :: b2 :: rest, h => by
    have hb0 : b0 < 256 := h b0 (by simp)
    have hb1 : b1 < 256 := h b1 (by simp)
    have hb2 : b2 < 256 := h b2 (by simp)
    have hrest : ∀ b ∈ rest, b < 256 := fun b hb => h b (by simp [hb])
    have ih : base64_decode_chunks (trimTrailingEq (base64_encode rest)) =
        some rest := base64_roundtrip rest hrest
    have hi0 : (b0 <<< 16 ||| b1 <<< 8 ||| b2) >>> 18 &&& 63 < 64 := and63_lt _
    have hi1 : (b0 <<< 16 ||| b1 <<< 8 ||| b2) >>> 12 &&& 63 < 64 := and63_lt _
    have hi2 : (b0 <<< 16 ||| b1 <<< 8 ||| b2) >>> 6 &&& 63 < 64 := and63_lt _
    have hi3 : (b0 <<< 16 ||| b1 <<< 8 ||| b2) &&& 63 < 64 := and63_lt _
    by_cases hrne : rest = []
    · subst hrne
      show base64_decode_chunks (trimTrailingEq
        [B64_ALPHABET.getD ((b0 <<< 16 ||| b1 <<< 8 ||| b2) >>> 18 &&& 63) 'A',
         B64_ALPHABET.getD ((b0 <<< 16 ||| b1 <<< 8 ||| b2) >>> 12 &&& 63) 'A',
         B64_ALPHABET.getD ((b0 <<< 16 ||| b1 <<< 8 ||| b2) >>> 6 &&& 63) 'A',
         B64_ALPHABET.getD ((b0 <<< 16 ||| b1 <<< 8 ||| b2) &&& 63) 'A']) =
        some [b0, b1, b2]
      rw [show trimTrailingEq
          [B64_ALPHABET.getD ((b0 <<< 16 ||| b1 <<< 8 ||| b2) >>> 18 &&& 63) 'A',
           B64_ALPHABET.getD ((b0 <<< 16 ||| b1 <<< 8 ||| b2) >>> 12 &&& 63) 'A',
           B64_ALPHABET.getD ((b0 <<< 16 ||| b1 <<< 8 ||| b2) >>> 6 &&& 63) 'A',
           B64_ALPHABET.getD ((b0 <<< 16 ||| b1 <<< 8 ||| b2) &&& 63) 'A'] =
          [B64_ALPHABET.getD ((b0 <<< 16 ||| b1 <<< 8 ||| b2) >>> 18 &&& 63) 'A',
           B64_ALPHABET.getD ((b0 <<< 16 ||| b1 <<< 8 ||| b2) >>> 12 &&& 63) 'A',
           B64_ALPHABET.getD ((b0 <<< 16 ||| b1 <<< 8 ||| b2) >>> 6 &&& 63) 'A'] ++
          [B64_ALPHABET.getD ((b0 <<< 16 ||| b1 <<< 8 ||| b2) &&& 63) 'A']
        from by
          show trimTrailingEq
            ([B64_ALPHABET.getD ((b0 <<< 16 ||| b1 <<< 8 ||| b2) >>> 18 &&& 63) 'A',
              B64_ALPHABET.getD ((b0 <<< 16 ||| b1 <<< 8 ||| b2) >>> 12 &&& 63) 'A',
              B64_ALPHABET.getD ((b0 <<< 16 ||| b1 <<< 8 ||| b2) >>> 6 &&& 63) 'A'] ++
             [B64_ALPHABET.getD ((b0 <<< 16 ||| b1 <<< 8 ||| b2) &&& 63) 'A']) = _
          exact trimTrailingEq_append_single (alphabet_ne_pad hi3)]
      simp only [List.cons_append, List.nil_append, base64_decode_chunks]
      rw [alphabet_findIdx hi0, alphabet_findIdx hi1, alphabet_findIdx hi2,
        alphabet_findIdx hi3]
      simp [(b64_core3 hb0 hb1 hb2).1, (b64_core3 hb0 hb1 hb2).2.1,
        (b64_core3 hb0 hb1 hb2).2.2]
    · have htne := base64_encode_trim_ne_nil rest hrne
      show base64_decode_chunks (trimTrailingEq
        (([B64_ALPHABET.getD ((b0 <<< 16 ||| b1 <<< 8 ||| b2) >>> 18 &&& 63) 'A',
           B64_ALPHABET.getD ((b0 <<< 16 ||| b1 <<< 8 ||| b2) >>> 12 &&& 63) 'A',
           B64_ALPHABET.getD ((b0 <<< 16 ||| b1 <<< 8 ||| b2) >>> 6 &&& 63) 'A',
           B64_ALPHABET.getD ((b0 <<< 16 ||| b1 <<< 8 ||| b2) &&& 63) 'A'] ++
          base64_encode rest))) = some (b0 :: b1 :: b2 :: rest)
      rw [trimTrailingEq_append_of_ne_nil htne]
      simp only [List.cons_append, List.nil_append, base64_decode_chunks]
      rw [alphabet_findIdx hi0, alphabet_findIdx hi1, alphabet_findIdx hi2,
        alphabet_findIdx hi3]
      simp [ih, (b64_core3 hb0 hb1 hb2).1, (b64_core3 hb0 hb1 hb2).2.1,
        (b64_core3 hb0 hb1 hb2).2.2]

/-- XOR by the same keystream twice is the identity, componentwise. -/
theorem zipWith_xor_cancel : ∀ (l ks : List ℕ), l.length ≤ ks.length →
    List.zipWith (fun b k => b ^^^ k)
      (List.zipWith (fun b k => b ^^^ k) l ks) ks = l
  | [], _, _ => by simp
  | _ :: _, [], h => by simp at h
  | b :: bs, k :: kt, h => by
    simp only [List.zipWith_cons_cons]
    rw [Nat.xor_cancel_right]
    rw [zipWith_xor_cancel bs kt (by simpa using h)]

/-- `xorKey` preserves length. -/
theorem xorKey_length (data : List ℕ) : (xorKey data).length = data.length := by
  simp [xorKey]

/-- `xorKey` is an involution: decrypting XORs with the same cycled key. -/
theorem xorKey_xorKey (data : List ℕ) : xorKey (xorKey data) = data := by
  unfold xorKey
  rw [show (List.zipWith (fun b k => b ^^^ k) data
      ((List.range data.length).map
        (fun i => ENCRYPTION_KEY.getD (i % ENCRYPTION_KEY.length) 0))).length =
      data.length from by simp]
  exact zipWith_xor_cancel data _ (by simp)

/-- XOR of byte lists is a byte list. -/
theorem zipWith_xor_lt {l ks : List ℕ} (hl : ∀ b ∈ l, b < 256)
    (hk : ∀ k ∈ ks, k < 256) :
    ∀ b ∈ List.zipWith (fun b k => b ^^^ k) l ks, b < 256 := by
  induction l generalizing ks with
  | nil => simp
  | cons x xs ih =>
    cases ks with
    | nil => simp
    | cons k kt =>
      intro b hb
      rw [List.zipWith_cons_cons] at hb
      rcases List.mem_cons.mp hb with rfl | hb'
      · have hx : x < 2 ^ 8 := by
          have := hl x (List.mem_cons_self x xs)
          omega
        have hkk : k < 2 ^ 8 := by
          have := hk k (List.mem_cons_self k kt)
          omega
        have := Nat.xor_lt_two_pow hx hkk
        omega
      · exact ih (fun c hc => hl c (List.mem_cons_of_mem x hc))
          (fun c hc => hk c (List.mem_cons_of_mem k hc)) b hb'

/-- Every byte of the cycled encryption keystream is below 256. -/
theorem keystream_lt (n : ℕ) :
    ∀ k ∈ (List.range n).map
      (fun i => ENCRYPTION_KEY.getD (i % ENCRYPTION_KEY.length) 0), k < 256 := by
  intro k hk
  rcases List.mem_map.mp hk with ⟨i, _, rfl⟩
  have hkey : ∀ j ∈ List.range 25, ENCRYPTION_KEY.getD j 0 < 256 := by decide
  have hlen : ENCRYPTION_KEY.length = 25 := rfl
  rw [hlen]
  exact hkey (i % 25) (List.mem_range.mpr (Nat.mod_lt i (by norm_num)))

/-- `xorKey` maps byte lists to byte lists. -/
theorem xorKey_lt {data : List ℕ} (h : ∀ b ∈ data, b < 256) :
    ∀ b ∈ xorKey data, b < 256 := by
  unfold xorKey
  exact zipWith_xor_lt h (keystream_lt data.length)

/-- C9: the XOR-over-base64 scheme used by `save_credentials` /
`get_credentials` is lossless: for every byte sequence (in particular the
UTF-8 bytes of any credential string, such as "alice" or "1234"),
decrypting the encryption recovers exactly the original bytes, through the
hand-rolled base64 encoder and decoder; `String::from_utf8` then rebuilds
the original string from its own bytes. -/
theorem decrypt_encrypt_roundtrip (data : List ℕ) (h : ∀ b ∈ data, b < 256) :
    decrypt (encrypt data) = some data := by
  unfold decrypt encrypt
  rw [base64_roundtrip (xorKey data) (xorKey_lt h)]
  simp [xorKey_xorKey]

/-- C9 witness: the UTF-8 bytes of "alice" survive the roundtrip. -/
theorem decrypt_encrypt_roundtrip_witness :
    (∀ b ∈ ([97, 108, 105, 99, 101] : List ℕ), b < 256)
    ∧ decrypt (encrypt [97, 108, 105, 99, 101]) =
        some [97, 108, 105, 99, 101] :=
  ⟨by decide, decrypt_encrypt_roundtrip [97, 108, 105, 99, 101] (by decide)⟩

/-- `normalize_text` lifted to `String`. -/
def normalizeTextS (s : String) : String := String.mk (normalize_text s.data)

/-- `Path::file_name().unwrap_or(rel_path)`: the component after the last
path separator. -/
def fileNameOf (relPath : String) : String :=
  String.mk ((relPath.data.splitOnP (fun c => c == '/')).getLastD relPath.data)

/-- `process_resources` (src/scrapper/processing.rs lines 35-128) as seen
by its callers: the filesystem walk and the `extract-pdf` subprocess are
the input `pdfs` — each discovered PDF as its path components below the
subject directory (so `strip_prefix(subject_path)` is their join) together
with the raw text the extraction subprocess printed. Each text is
normalized and kept only when its trimmed form is nonempty. -/
def process_resources (pdfs : List (List String × String)) :
    List (String × String) :=
  pdfs.filterMap (fun e =>
    let normalized := normalizeTextS e.2
    if (trimChars normalized.data).isEmpty then none
    else some (String.mk (List.intercalate ['/'] (e.1.map String.data)), normalized))

/-- Subject-id extraction of `scan_local_data` (src/ops.rs lines 233-250):
a `URL:` line of `summary.md` contributes everything after its last `/`,
trimmed; otherwise the directory name stands in. -/
def subjectIdOf (dirName : String) (summary : Option String) : String :=
  match summary with
  | none => dirName
  | some content =>
    match (content.data.splitOnP (fun c => c == '\n')).find?
        (fun l => "URL:".data.isPrefixOf l) with
    | none => dirName
    | some urlLine =>
      if urlLine.contains '/' then
        String.mk (trimChars ((urlLine.splitOnP (fun c => c == '/')).getLastD urlLine))
      else dirName

/-- The id-accumulating fold shared by every indexing loop: thread the
store through `F`, concatenating the ids each step passed to
`add_document`. -/
def foldIndex {α : Type} (F : α → List Document → List Document × List String)
    (items : List α) (start : List Document × List String) :
    List Document × List String :=
  items.foldl (fun acc x =>
    let r := F x acc.1
    (r.1, acc.2 ++ r.2)) start

/-- One file of the `scan_local_data` indexing loop (src/ops.rs lines
232-297): skip when the `#0` sentinel exists; otherwise drop a legacy
unchunked record, split into chunks (`TextSplitter::new(1000)` is the
parameter `chunker`), and `add_document` each chunk — or a single `#0`
chunk when the splitter returns none. Returns the new store and the ids
passed to `add_document`, in call order. -/
def indexFile (chunker : String → List String) (embedF : String → List ℚ)
    (subjectId dirName : String) (store : List Document)
    (relPath text : String) : List Document × List String :=
  let docId := subjectId ++ "/" ++ relPath
  let chunk0Id := docId ++ "#0"
  if LinearVectorStore.contains store chunk0Id then (store, [])
  else
    let store1 := if LinearVectorStore.contains store docId
      then LinearVectorStore.remove_document store docId else store
    let chunks := chunker text
    let filename := fileNameOf relPath
    if chunks.isEmpty then
      let pdfText := "### DOC: " ++ filename ++ "\nSubject: " ++ dirName
        ++ "\n\n" ++ text
      (RagSystem.add_document embedF store1 (docId ++ "#0") pdfText "user"
        [("type", "pdf"), ("filename", relPath)], [docId ++ "#0"])
    else
      chunks.enum.foldl (fun acc ic =>
        let chunkId := docId ++ "#" ++ toString ic.1
        let pdfText := "### DOC: " ++ filename ++ " (Part " ++ toString (ic.1 + 1)
          ++ "/" ++ toString chunks.length ++ ")\nCourse: " ++ dirName
          ++ "\n\n" ++ ic.2
        (RagSystem.add_document embedF acc.1 chunkId pdfText "user"
          [("type", "pdf"), ("filename", relPath)], acc.2 ++ [chunkId]))
        (store1, [])

/-- One subject directory of `scan_local_data`: process its resources and
index every extracted file in order. -/
def scanSubject (chunker : String → List String) (embedF : String → List ℚ)
    (dirName : String) (summary : Option String)
    (pdfs : List (List String × String)) (store : List Document) :
    List Document × List String :=
  foldIndex
    (fun f st => indexFile chunker embedF (subjectIdOf dirName summary) dirName
      st f.1 f.2)
    (process_resources pdfs) (store, [])

/-- `scan_local_data` (src/ops.rs lines 198-305): walk the visible subject
directories of the data dir (the walk result is the `subjects` parameter:
directory name, optional `summary.md` content, discovered PDFs) and index
each; returns the final store and all ids passed to `add_document`. -/
def scan_local_data (chunker : String → List String) (embedF : String → List ℚ)
    (subjects : List (String × Option String × List (List String × String)))
    (store : List Document) : List Document × List String :=
  foldIndex (fun s st => scanSubject chunker embedF s.1 s.2.1 s.2.2 st)
    subjects (store, [])

/-- One PDF of the `run_sync` indexing loop (src/ops.rs lines 144-183):
identical to the local rescan except that no legacy unchunked record is
removed. -/
def run_sync_pdf (chunker : String → List String) (embedF : String → List ℚ)
    (subId subName : String) (store : List Document)
    (relPath text : String) : List Document × List String :=
  let docId := subId ++ "/" ++ relPath
  let chunk0Id := docId ++ "#0"
  if LinearVectorStore.contains store chunk0Id then (store, [])
  else
    let chunks := chunker text
    let filename := fileNameOf relPath
    if chunks.isEmpty then
      let pdfText := "### DOC: " ++ filename ++ "\nSubject: " ++ subName
        ++ "\n\n" ++ text
      (RagSystem.add_document embedF store (docId ++ "#0") pdfText "user"
        [("type", "pdf"), ("filename", relPath)], [docId ++ "#0"])
    else
      chunks.enum.foldl (fun acc ic =>
        let chunkId := docId ++ "#" ++ toString ic.1
        let pdfText := "### DOC: " ++ filename ++ " (Part " ++ toString (ic.1 + 1)
          ++ "/" ++ toString chunks.length ++ ")\nCourse: " ++ subName
          ++ "\n\n" ++ ic.2
        (RagSystem.add_document embedF acc.1 chunkId pdfText "user"
          [("type", "pdf"), ("filename", relPath)], acc.2 ++ [chunkId]))
        (store, [])

/-- One subject of `run_sync` (src/ops.rs lines 81-187): the summary
document is added only when `sub.id` is absent, then every extracted PDF
is indexed. `subjects` carries id, name, assembled summary text and the
`process_resources` output. -/
def run_sync_subject (chunker : String → List String) (embedF : String → List ℚ)
    (subId subName fullText : String) (extracted : List (String × String))
    (store : List Document) : List Document × List String :=
  let first :=
    if LinearVectorStore.contains store subId then (store, ([] : List String))
    else (RagSystem.add_document embedF store subId fullText "user"
      [("type", "subject"), ("name", subName)], [subId])
  foldIndex (fun f st => run_sync_pdf chunker embedF subId subName st f.1 f.2)
    extracted first

/-- The indexing phase of `run_sync` over all scraped subjects. -/
def run_sync_index (chunker : String → List String) (embedF : String → List ℚ)
    (subjects : List (String × String × String × List (String × String)))
    (store : List Document) : List Document × List String :=
  foldIndex
    (fun s st => run_sync_subject chunker embedF s.1 s.2.1 s.2.2.1 s.2.2.2 st)
    subjects (store, [])

/-- A file whose `#0` sentinel is already stored is skipped entirely by
the local rescan: no removal, no `add_document`. -/
theorem indexFile_skip (chunker : String → List String) (embedF : String → List ℚ)
    (subjectId dirName : String) (store : List Document) (relPath text : String)
    (h : LinearVectorStore.contains store (subjectId ++ "/" ++ relPath ++ "#0") = true) :
    indexFile chunker embedF subjectId dirName store relPath text = (store, []) := by
  unfold indexFile
  simp [h]

/-- A PDF whose `#0` sentinel is already stored is skipped by `run_sync`. -/
theorem run_sync_pdf_skip (chunker : String → List String) (embedF : String → List ℚ)
    (subId subName : String) (store : List Document) (relPath text : String)
    (h : LinearVectorStore.contains store (subId ++ "/" ++ relPath ++ "#0") = true) :
    run_sync_pdf chunker embedF subId subName store relPath text = (store, []) := by
  unfold run_sync_pdf
  simp [h]

/-- An id-accumulating fold whose every step skips leaves the store and
the accumulated ids unchanged. -/
theorem foldIndex_skip {α : Type} (F : α → List Document → List Document × List String) :
    ∀ (items : List α) (store : List Document) (acc2 : List String),
    (∀ x ∈ items, F x store = (store, [])) →
    foldIndex F items (store, acc2) = (store, acc2) := by
  intro items
  induction items with
  | nil =>
    intro store acc2 _
    rfl
  | cons f fs ih =>
    intro store acc2 h
    unfold foldIndex
    rw [List.foldl_cons]
    have hf := h f (List.mem_cons_self f fs)
    simp only [hf, List.append_nil]
    exact ih store acc2 (fun g hg => h g (List.mem_cons_of_mem f hg))

/-- C5: when every PDF of the data directory already has its
`<subject_id>/<rel_path>#0` sentinel in the store (as a completed first
run guarantees), a second incremental sync / local rescan performs zero
`add_document` calls and returns the store unchanged — in particular the
document count is unchanged. For `run_sync` the completed first run also
stored each subject summary under `sub.id`, which the hypothesis records. -/
theorem incremental_sync_idempotent
    (chunker : String → List String) (embedF : String → List ℚ)
    (subjects : List (String × Option String × List (List String × String)))
    (syncSubjects : List (String × String × String × List (String × String)))
    (store : List Document)
    (h1 : ∀ s ∈ subjects, ∀ f ∈ process_resources s.2.2,
        LinearVectorStore.contains store
          (subjectIdOf s.1 s.2.1 ++ "/" ++ f.1 ++ "#0") = true)
    (h2 : ∀ s ∈ syncSubjects,
        LinearVectorStore.contains store s.1 = true ∧
        ∀ f ∈ s.2.2.2,
          LinearVectorStore.contains store (s.1 ++ "/" ++ f.1 ++ "#0") = true) :
    scan_local_data chunker embedF subjects store = (store, [])
    ∧ run_sync_index chunker embedF syncSubjects store = (store, []) := by
  constructor
  · unfold scan_local_data
    refine foldIndex_skip _ subjects store [] ?_
    intro s hs
    show scanSubject chunker embedF s.1 s.2.1 s.2.2 store = (store, [])
    unfold scanSubject
    refine foldIndex_skip _ (process_resources s.2.2) store [] ?_
    intro f hf
    exact indexFile_skip chunker embedF _ _ store f.1 f.2 (h1 s hs f hf)
  · unfold run_sync_index
    refine foldIndex_skip _ syncSubjects store [] ?_
    intro s hs
    show run_sync_subject chunker embedF s.1 s.2.1 s.2.2.1 s.2.2.2 store = (store, [])
    unfold run_sync_subject
    rw [if_pos (h2 s hs).1]
    refine foldIndex_skip _ s.2.2.2 store [] ?_
    intro f hf
    exact run_sync_pdf_skip chunker embedF _ _ store f.1 f.2 ((h2 s hs).2 f hf)

/-- Concrete already-indexed store for the C5 witness. -/
def storeW : List Document :=
  [{ id := "CS101/resources/a.pdf#0", content := "", embedding := [],
     metadata := [], user_id := "user" },
   { id := "SUB1", content := "", embedding := [], metadata := [],
     user_id := "user" },
   { id := "SUB1/r.pdf#0", content := "", embedding := [], metadata := [],
     user_id := "user" }]

/-- Concrete rescan input for the C5 witness. -/
def subjectsW : List (String × Option String × List (List String × String)) :=
  [("CS101", none, [(["resources", "a.pdf"], "a")])]

/-- Concrete sync input for the C5 witness. -/
def syncSubjectsW : List (String × String × String × List (String × String)) :=
  [("SUB1", "Subject One", "s", [("r.pdf", "b")])]

set_option maxHeartbeats 2000000 in
/-- C5 witness: on a concretely pre-indexed store, both hypotheses hold by
computation and the second run adds nothing. -/
theorem incremental_sync_idempotent_witness :
    (∀ s ∈ subjectsW, ∀ f ∈ process_resources s.2.2,
        LinearVectorStore.contains storeW
          (subjectIdOf s.1 s.2.1 ++ "/" ++ f.1 ++ "#0") = true)
    ∧ scan_local_data (fun _ => []) (fun _ => []) subjectsW storeW = (storeW, [])
    ∧ run_sync_index (fun _ => []) (fun _ => []) syncSubjectsW storeW = (storeW, []) :=
  ⟨by decide,
   (incremental_sync_idempotent (fun _ => []) (fun _ => []) subjectsW syncSubjectsW
     storeW (by decide) (by decide)).1,
   (incremental_sync_idempotent (fun _ => []) (fun _ => []) subjectsW syncSubjectsW
     storeW (by decide) (by decide)).2⟩

/-- The external `TextSplitter::new(1000)` on inputs of at most 1000
bytes: the whole text is the single chunk, and empty text has no chunks.
The scenario text "alpha beta gamma" is 16 bytes. -/
def shortTextSplitter (t : String) : List String := if t.isEmpty then [] else [t]

/-- The C7 cold-install scenario: an empty index, and a data directory
holding exactly `CS101/resources/hello.pdf` whose extracted text is
"alpha beta gamma"; no `summary.md` exists. -/
def scenarioSubjects : List (String × Option String × List (List String × String)) :=
  [("CS101", none, [(["resources", "hello.pdf"], "alpha beta gamma")])]

/-- Running the local rescan on the scenario (an arbitrary embedder `[1]`
stands in for the llama model). -/
def scenarioResult : List Document × List String :=
  scan_local_data shortTextSplitter (fun _ => [1]) scenarioSubjects []

set_option maxHeartbeats 2000000 in
/-- C7 counterexample to the claim as stated: the rescan yields exactly
one document, but `rel_path` is the path relative to the SUBJECT directory
(`strip_prefix(subject_path)` in `process_resources`), so its id is
`CS101/resources/hello.pdf#0` — not `CS101/hello.pdf#0` — and
`metadata.filename` is `resources/hello.pdf`, not `hello.pdf`. -/
theorem scan_hello_counterexample :
    scenarioResult =
      ([{ id := "CS101/resources/hello.pdf#0",
          content := "### DOC: hello.pdf (Part 1/1)\nCourse: CS101\n\nalpha beta gamma",
          embedding := [1],
          metadata := [("type", "pdf"), ("filename", "resources/hello.pdf")],
          user_id := "user" }],
       ["CS101/resources/hello.pdf#0"])
    ∧ ("CS101/resources/hello.pdf#0" : String) ≠ "CS101/hello.pdf#0"
    ∧ (("resources/hello.pdf" : String) ≠ "hello.pdf") := by
  refine ⟨by decide, by decide, by decide⟩

set_option maxHeartbeats 2000000 in
/-- C7 (amended): the scenario rescan yields exactly one document, with id
`CS101/resources/hello.pdf#0`, `metadata.type = "pdf"`,
`metadata.filename = "resources/hello.pdf"`, and content beginning with
`### DOC: hello.pdf`. -/
theorem scan_hello_spec :
    scenarioResult.1.length = 1
    ∧ scenarioResult.1.map (fun d => d.id) = ["CS101/resources/hello.pdf#0"]
    ∧ scenarioResult.1.map (fun d => d.metadata.lookup "type") = [some "pdf"]
    ∧ scenarioResult.1.map (fun d => d.metadata.lookup "filename") =
        [some "resources/hello.pdf"]
    ∧ scenarioResult.1.map
        (fun d => "### DOC: hello.pdf".data.isPrefixOf d.content.data) = [true] := by
  refine ⟨by decide, by decide, by decide, by decide, by decide⟩
